import Mathlib

/-!
Verification of the chess-AI core of the responsive web chess game
(`src/chess_game_frontend/src/chess/logic.js` and `src/App.js`).

The rules oracle (chess.js) is an external dependency: a position is
modelled as a game tree whose nodes record exactly the observations the
code makes through the oracle interface (`game.board()`, `game.turn()`,
`game.isCheckmate()`, `game.isDraw()`, `game.isStalemate()`,
`game.isThreefoldRepetition()`, `game.isInsufficientMaterial()`,
`game.moves({verbose:true})`), and applying/undoing a move walks into a
child subtree and back.  JavaScript numbers that the engine actually
manipulates are rationals together with the two infinities used as
alpha/beta seeds, so scores live in `WithBot (WithTop Rat)`.
-/

namespace ChessCore

/-- Piece colors, as the chess.js strings "w" / "b". -/
inductive Color where
  | w
  | b
deriving DecidableEq, Repr

/-- Piece kinds, as the chess.js one-letter type tags. -/
inductive PieceType where
  | p
  | n
  | b
  | r
  | q
  | k
deriving DecidableEq, Repr

/-- A chess.js piece object: a color and a kind. -/
structure Piece where
  color : Color
  ptype : PieceType
deriving DecidableEq, Repr

/-- Algebraic squares are plain strings ("e4"), as in the source. -/
abbrev Square := String

/-- The fields of a chess.js verbose move object that the code reads.
`sanText` is the move's SAN string (`move.san`). -/
structure Move where
  fromSq : Square
  toSq : Square
  promotion : Option PieceType
  captured : Option PieceType
  sanText : String
  piece : PieceType
deriving DecidableEq, Repr

/-- Extended scores: JavaScript numbers including `-Infinity` (`⊥`) and
`+Infinity` (`⊤`), used for alpha/beta seeds and `Math.max`/`Math.min`. -/
abbrev ERat := WithBot (WithTop Rat)

/-- Embed a finite score into `ERat`. -/
def ofQ (q : Rat) : ERat := ((q : WithTop Rat) : WithBot (WithTop Rat))

/-- The observations the engine makes of a single position through the
chess.js oracle. `board` is the `game.board()` matrix (rank 8 down to
rank 1, `null` entries for empty squares). -/
structure GameNode where
  board : List (List (Option Piece))
  turn : Color
  isCheckmate : Bool
  isDraw : Bool
  isStalemate : Bool
  isThreefoldRepetition : Bool
  isInsufficientMaterial : Bool
deriving DecidableEq, Repr

/-- A position together with its legal moves and the positions they lead
to: the unrolled view of the chess.js oracle that the search consumes.
The list order is the order `game.moves({verbose:true})` yields moves. -/
inductive GameTree where
  | node (view : GameNode) (children : List (Move × GameTree))

/-- The oracle observations at the root of a tree. -/
def GameTree.view : GameTree → GameNode
  | .node v _ => v

/-- The legal moves (with resulting subtrees) at the root of a tree. -/
def GameTree.children : GameTree → List (Move × GameTree)
  | .node _ ch => ch

/-- Table `PIECE_VALUE` from logic.js: pawn 100, knight 320, bishop 330,
rook 500, queen 900, king 0. -/
def PIECE_VALUE : PieceType → Rat
  | .p => 100
  | .n => 320
  | .b => 330
  | .r => 500
  | .q => 900
  | .k => 0

/-- Function `evaluateMaterial` from logic.js: iterate `game.board()` rank by rank,
adding the piece value for white pieces and subtracting it for black. -/
def evaluateMaterial (g : GameNode) : Rat :=
  g.board.foldl
    (fun sum rank =>
      rank.foldl
        (fun sum cell =>
          match cell with
          | none => sum
          | some pc =>
              sum + (if pc.color = Color.w then PIECE_VALUE pc.ptype else -PIECE_VALUE pc.ptype))
        sum)
    0

/-- The material score as the spec words it (§4.2): the sum, over every
piece on the board, of its fixed table value, counted positive for white
and negative for black. -/
def materialSpec (g : GameNode) : Rat :=
  ((g.board.flatten.filterMap id).map
    (fun pc => if pc.color = Color.w then PIECE_VALUE pc.ptype else -PIECE_VALUE pc.ptype)).sum

/-- Function `terminalScore` from logic.js: checkmate is scored ±1,000,000 from the
perspective color's point of view, any drawn condition scores 0, and a
non-terminal position yields `none` (JavaScript `null`). -/
def terminalScore (g : GameNode) (perspectiveColor : Color) : Option ERat :=
  if g.isCheckmate then
    some (if g.turn = perspectiveColor then ofQ (-1000000) else ofQ 1000000)
  else if g.isDraw || g.isStalemate || g.isThreefoldRepetition || g.isInsufficientMaterial then
    some (ofQ 0)
  else
    none

/-- The maximizing branch of `minimax`'s move loop: apply each move (step
into its subtree), score it via `f` at the current alpha/beta window, undo,
take the running maximum, raise alpha, and stop as soon as `alpha >= beta`.
`f t a b` stands for the recursive call `minimax(t, depth-1, a, b, ...)`. -/
def abMaxLoop (f : GameTree → ERat → ERat → ERat) :
    List (Move × GameTree) → ERat → ERat → ERat → ERat
  | [], _, _, value => value
  | (_, t) :: rest, α, β, value =>
      let child := f t α β
      let value' := max value child
      let α' := max α value'
      if β ≤ α' then value' else abMaxLoop f rest α' β value'

/-- The minimizing branch of `minimax`'s move loop, symmetric to
`abMaxLoop`: running minimum, lower beta, stop once `alpha >= beta`. -/
def abMinLoop (f : GameTree → ERat → ERat → ERat) :
    List (Move × GameTree) → ERat → ERat → ERat → ERat
  | [], _, _, value => value
  | (_, t) :: rest, α, β, value =>
      let child := f t α β
      let value' := min value child
      let β' := min β value'
      if β' ≤ α then value' else abMinLoop f rest α β' value'

/-- Function `minimax` from logic.js: terminal positions short-circuit through
`terminalScore`; depth 0 returns the perspective-relative material score;
a defensive 0 is returned when no moves exist; otherwise the maximizing or
minimizing alpha-beta loop runs over the legal moves in oracle order. -/
def minimax (t : GameTree) (d : Nat) (α β : ERat) (perspectiveColor : Color) : ERat :=
  match t with
  | .node v ch =>
    match terminalScore v perspectiveColor with
    | some s => s
    | none =>
      match d with
      | 0 =>
          ofQ (if perspectiveColor = Color.w then evaluateMaterial v else -evaluateMaterial v)
      | d' + 1 =>
          if ch.isEmpty then ofQ 0
          else if v.turn = perspectiveColor then
            abMaxLoop (fun t' a b => minimax t' d' a b perspectiveColor) ch α β ⊥
          else
            abMinLoop (fun t' a b => minimax t' d' a b perspectiveColor) ch α β ⊤

/-- Unpruned full minimax, following the spec's words (§4.4 read without
the pruning steps, §8 "an unpruned full minimax traversal"): identical
terminal/depth-0/no-move handling, but every child is visited and the
plain running maximum (resp. minimum) is returned — no alpha/beta window. -/
def minimaxFull (t : GameTree) (d : Nat) (perspectiveColor : Color) : ERat :=
  match t with
  | .node v ch =>
    match terminalScore v perspectiveColor with
    | some s => s
    | none =>
      match d with
      | 0 =>
          ofQ (if perspectiveColor = Color.w then evaluateMaterial v else -evaluateMaterial v)
      | d' + 1 =>
          if ch.isEmpty then ofQ 0
          else if v.turn = perspectiveColor then
            ch.foldl (fun value q => max value (minimaxFull q.2 d' perspectiveColor)) ⊥
          else
            ch.foldl (fun value q => min value (minimaxFull q.2 d' perspectiveColor)) ⊤

/-- The mutable chess.js instance as the search sees it: the current
position (a subtree) plus the stack of positions `game.move(...)` walked
through, which `game.undo()` pops. -/
abbrev St := GameTree × List GameTree

/-- Model of `game.move(m)`: step into the child position, remembering the parent. -/
def pushSt (child : GameTree) (st : St) : St := (child, st.1 :: st.2)

/-- Model of `game.undo()`: step back to the parent position; on an empty history
chess.js returns null and leaves the position unchanged. -/
def undoSt (st : St) : St :=
  match st with
  | (cur, []) => (cur, [])
  | (_, parent :: rest) => (parent, rest)

/-- Loop `abMaxLoop` with the mutable game threaded through: each iteration
does `game.move(m)`, recurses, `game.undo()`, then updates value/alpha and
checks the pruning break — exactly the statement order of the source. -/
def abMaxLoopSt (f : St → ERat → ERat → ERat × St) :
    List (Move × GameTree) → ERat → ERat → ERat → St → ERat × St
  | [], _, _, value, st => (value, st)
  | (_, t) :: rest, α, β, value, st =>
      let st1 := pushSt t st
      let r := f st1 α β
      let st2 := undoSt r.2
      let value' := max value r.1
      let α' := max α value'
      if β ≤ α' then (value', st2) else abMaxLoopSt f rest α' β value' st2

/-- Loop `abMinLoop` with the mutable game threaded through. -/
def abMinLoopSt (f : St → ERat → ERat → ERat × St) :
    List (Move × GameTree) → ERat → ERat → ERat → St → ERat × St
  | [], _, _, value, st => (value, st)
  | (_, t) :: rest, α, β, value, st =>
      let st1 := pushSt t st
      let r := f st1 α β
      let st2 := undoSt r.2
      let value' := min value r.1
      let β' := min β value'
      if β' ≤ α then (value', st2) else abMinLoopSt f rest α β' value' st2

/-- Function `minimax` with the mutable game threaded through: the value computed is
the one of the pure `minimax`, and the final game state is the component
`2` of the result. -/
def minimaxSt (st : St) (d : Nat) (α β : ERat) (perspectiveColor : Color) : ERat × St :=
  match st.1 with
  | .node v ch =>
    match terminalScore v perspectiveColor with
    | some s => (s, st)
    | none =>
      match d with
      | 0 =>
          (ofQ (if perspectiveColor = Color.w then evaluateMaterial v else -evaluateMaterial v),
           st)
      | d' + 1 =>
          if ch.isEmpty then (ofQ 0, st)
          else if v.turn = perspectiveColor then
            abMaxLoopSt (fun st' a b => minimaxSt st' d' a b perspectiveColor) ch α β ⊥ st
          else
            abMinLoopSt (fun st' a b => minimaxSt st' d' a b perspectiveColor) ch α β ⊤ st

/-- Function `scoreMoveHeuristic` from logic.js. `rand` stands for the value the
call `Math.random()` produced for this move: captures +10, a SAN with "+"
+3, a SAN with "#" +100, a non-pawn mover +0.5, plus `rand * 0.25`. -/
def scoreMoveHeuristic (move : Move) (rand : Rat) : Rat :=
  (0 +
    (if move.captured.isSome then 10 else 0) +
    (if move.sanText.data.contains '+' then 3 else 0) +
    (if move.sanText.data.contains '#' then 100 else 0) +
    (if move.piece ≠ PieceType.p then 1/2 else 0)) +
  rand * (1/4)

/-- An `AI_DIFFICULTY_PRESETS` entry: label, search depth, randomness. -/
structure DifficultyPreset where
  label : String
  depth : Nat
  randomness : Rat
deriving DecidableEq, Repr

/-- Table `AI_DIFFICULTY_PRESETS` from logic.js, as the key-indexed lookup the
code performs (`AI_DIFFICULTY_PRESETS[key]`, absent keys yield undefined). -/
def AI_DIFFICULTY_PRESETS : String → Option DifficultyPreset
  | "easy" => some ⟨"Easy", 1, 35/100⟩
  | "medium" => some ⟨"Medium", 2, 18/100⟩
  | "hard" => some ⟨"Hard", 3, 7/100⟩
  | _ => none

/-- Function `clampDifficultyKey` from logic.js: a present, recognized key is kept,
anything else (including a missing `options.difficulty`) becomes "medium". -/
def clampDifficultyKey (key : Option String) : String :=
  match key with
  | some k => if (AI_DIFFICULTY_PRESETS k).isSome then k else "medium"
  | none => "medium"

/-- An entry of `pickAiMove`'s `scored` array: a root move with its
minimax-plus-heuristic score. -/
structure ScoredMove where
  move : Move
  score : ERat
deriving DecidableEq, Repr

/-- The root scoring loop of `pickAiMove`: for each legal root move, apply
it, run `minimax(game, preset.depth - 1, -Infinity, Infinity, color)`, undo
it, and add the heuristic tie-break `scoreMoveHeuristic(m) * 0.35`.  The
ambient `Math.random()` stream is modelled by `rng` with `g` the number of
values drawn so far: the heuristic call for the i-th move consumes draw
`g + i`.  Returns the scored list, the game state, and the new draw count. -/
def rootScoreLoop (perspectiveColor : Color) (dep : Nat) (rng : Nat → Rat) :
    List (Move × GameTree) → St → Nat → List ScoredMove × St × Nat
  | [], st, g => ([], st, g)
  | (m, t) :: rest, st, g =>
      let st1 := pushSt t st
      let r := minimaxSt st1 dep ⊥ ⊤ perspectiveColor
      let st2 := undoSt r.2
      let spice := scoreMoveHeuristic m (rng g) * (35/100)
      let tail := rootScoreLoop perspectiveColor dep rng rest st2 (g + 1)
      (⟨m, r.1 + ofQ spice⟩ :: tail.1, tail.2)

/-- The comparator of `scored.sort((a, b) => b.score - a.score)`: a stays
before b exactly when `b.score - a.score <= 0`. -/
def scoredLe (a b : ScoredMove) : Bool := decide (b.score ≤ a.score)

/-- Stable insertion: `a` is placed before the first element `b` it may
precede (`le a b`); on ties `le` holds both ways and `a` — the earlier
element of the input — stays in front. -/
def insertLe {α : Type} (le : α → α → Bool) (a : α) : List α → List α
  | [] => [a]
  | b :: l => if le a b then a :: b :: l else b :: insertLe le a l

/-- Sorting: `Array.prototype.sort` is specified stable in JavaScript, and a stable
sort is uniquely determined by its comparator; it is modelled by the
canonical stable sort, insertion sort. -/
def sortStable {α : Type} (le : α → α → Bool) : List α → List α
  | [] => []
  | a :: l => insertLe le a (sortStable le l)

/-- Function `pickAiMove` from logic.js, with the mutable game (`St`) and the
ambient `Math.random()` stream (`rng`, already-consumed count `g`) made
explicit.  No legal moves returns `none` (JavaScript null); otherwise the
root moves are scored, sorted descending, and either the top move or — when
the randomness draw triggers — a uniform pick among the top `min 4 n`
(`Math.floor(Math.random() * n)`) is returned.  The result carries the
final game state and draw count. -/
def pickAiMoveFull (st : St) (difficulty : Option String) (rng : Nat → Rat) (g : Nat) :
    Option Move × St × Nat :=
  match st.1 with
  | .node v ch =>
    if ch.isEmpty then (none, st, g)
    else
      let difficultyKey := clampDifficultyKey difficulty
      -- `clampDifficultyKey` guarantees the lookup succeeds; `getD` only
      -- totalizes the indexing `AI_DIFFICULTY_PRESETS[difficultyKey]`.
      let preset := (AI_DIFFICULTY_PRESETS difficultyKey).getD ⟨"Medium", 2, 18/100⟩
      let randomness := preset.randomness
      let scored := rootScoreLoop v.turn (preset.depth - 1) rng ch st g
      let sorted := sortStable scoredLe scored.1
      if rng scored.2.2 < randomness then
        let n := min 4 sorted.length
        let idx := (⌊rng (scored.2.2 + 1) * (n : Rat)⌋).toNat
        ((sorted[idx]?).map ScoredMove.move, scored.2.1, scored.2.2 + 2)
      else
        (sorted.head?.map ScoredMove.move, scored.2.1, scored.2.2 + 1)

/-- List `FILES` from logic.js. -/
def FILES : List Char := ['a', 'b', 'c', 'd', 'e', 'f', 'g', 'h']

/-- Function `idxToSquare` from logic.js: UI board coordinates to an algebraic
square string.  Orientation `w`: row 0 is rank 8; orientation `b`: row 0
is rank 1.  (`FILES[col]` is totalized with a blank default; the claims
only concern `col ≤ 7`, where the two agree.) -/
def idxToSquare (row col : Nat) (orient : Color) : String :=
  let file := if orient = Color.w then FILES.getD col ' ' else FILES.getD (7 - col) ' '
  let rank : Int := if orient = Color.w then 8 - (row : Int) else (row : Int) + 1
  file.toString ++ toString rank

/-- Function `squareToIdx` from logic.js: parse an algebraic square string back to
UI indices.  `square[0]` is looked up in `FILES` (JavaScript `indexOf`
yields -1 on a miss or an undefined argument), `square[1]` goes through
`parseInt` (`none` models NaN), and `null` is returned when either fails. -/
def squareToIdx (s : String) (orient : Color) : Option (Int × Int) :=
  let fileIdx : Int :=
    match s.data.head? with
    | some c => if c ∈ FILES then ((FILES.indexOf c : Nat) : Int) else -1
    | none => -1
  let rankOfChar : Option Int :=
    match s.data[1]? with
    | some c => if c.isDigit then some ((c.toNat : Int) - 48) else none
    | none => none
  match rankOfChar with
  | none => none
  | some rank =>
      if fileIdx < 0 then none
      else
        some (if orient = Color.w then 8 - rank else rank - 1,
              if orient = Color.w then fileIdx else 7 - fileIdx)

/-! ### The App.js state-transition layer

`App.js` keeps the committed game (a chess.js instance rebuilt from PGN on
every transition), the selected square, the pending-promotion marker and
the last-move highlight.  The committed position is modelled by its move
history (chess.js reconstructs the position from exactly that record), and
the chess.js calls App.js makes are an abstract `Oracle` over histories. -/

/-- The move request App.js passes to `next.move(...)`. -/
structure MoveReq where
  fromSq : Square
  toSq : Square
  promotion : Option PieceType
deriving DecidableEq, Repr

/-- The chess.js capabilities App.js consumes, as functions of the
committed move history: `game.moves({verbose:true})`, `next.move(req)`
(returning the applied move or null), `game.get(square)` and
`game.turn()`. -/
structure Oracle where
  legalMoves : List Move → List Move
  applyMv : List Move → MoveReq → Option Move
  pieceAt : List Move → Square → Option Piece
  turnOf : List Move → Color

/-- The App.js component state that the claims concern. -/
structure AppState where
  game : List Move
  selected : Option Square
  pendingPromotion : Option (Square × Square)
  lastMove : Option (Square × Square)
deriving DecidableEq, Repr

/-- Lookup `getLegalMovesByFrom(game).get(from) ?? []` from logic.js/App.js: the
verbose legal moves grouped by origin square — i.e. the legal moves whose
`from` field is the given square, in oracle order. -/
def legalByFrom (O : Oracle) (h : List Move) (sq : Square) : List Move :=
  (O.legalMoves h).filter (fun m => m.fromSq = sq)

/-- Function `applyMove` from App.js: rebuild the game, play the request through
chess.js; on failure report `false` with the state unchanged, on success
commit the new position and clear selection/promotion markers. -/
def applyMove (O : Oracle) (st : AppState) (req : MoveReq) : Bool × AppState :=
  match O.applyMv st.game req with
  | none => (false, st)
  | some mv =>
      (true,
       { game := st.game ++ [mv]
         selected := none
         pendingPromotion := none
         lastMove := some (mv.fromSq, mv.toSq) })

/-- Function `tryMove` from App.js: the legal moves from `from` landing on `to`;
none → failure; more than one, or a promotion move → defer with a pending
promotion marker; otherwise apply `{from, to}` directly. -/
def tryMove (O : Oracle) (st : AppState) (fromSq toSq : Square) : Bool × AppState :=
  match (legalByFrom O st.game fromSq).filter (fun m => m.toSq = toSq) with
  | [] => (false, st)
  | m :: rest =>
      if rest.length + 1 > 1 || m.promotion.isSome then
        (true, { st with pendingPromotion := some (fromSq, toSq) })
      else
        applyMove O st ⟨fromSq, toSq, none⟩

/-- Function `onSquareClick` from App.js.  `gameOver` and `aiBlocked` stand for the
`gameOver` and `isAiTurn || isAiThinking` guards.  A set pending-promotion
marker makes every click a no-op; otherwise clicks drive the
select/switch/deselect/attempt-move logic. -/
def onSquareClick (O : Oracle) (gameOver aiBlocked : Bool) (st : AppState)
    (square : Square) : AppState :=
  if gameOver then st
  else if aiBlocked then st
  else if st.pendingPromotion.isSome then st
  else
    match st.selected with
    | none =>
        match O.pieceAt st.game square with
        | none => st
        | some p =>
            if p.color ≠ O.turnOf st.game then st
            else { st with selected := some square }
    | some sel =>
        if square = sel then { st with selected := none }
        else
          match O.pieceAt st.game square with
          | some p =>
              if p.color = O.turnOf st.game then { st with selected := some square }
              else
                let r := tryMove O st sel square
                if r.1 then r.2 else { r.2 with selected := none }
          | none =>
              let r := tryMove O st sel square
              if r.1 then r.2 else { r.2 with selected := none }

/-- Function `choosePromotion` from App.js: with no pending marker the handler does
nothing; otherwise it applies `{from, to, promotion}` for the marker's
squares. -/
def choosePromotion (O : Oracle) (st : AppState) (promotion : PieceType) : AppState :=
  match st.pendingPromotion with
  | none => st
  | some (f, t) => (applyMove O st ⟨f, t, some promotion⟩).2

/-- The two game modes of App.js. -/
inductive GameMode where
  | human
  | ai
deriving DecidableEq, Repr

/-- Function `doUndo` from App.js: blocked while the AI is thinking; in AI mode the
rebuilt game is undone twice (chess.js `undo()` drops the last ply and is
a no-op on an empty history), in two-player mode once; selection,
promotion marker and last-move highlight are cleared. -/
def doUndo (mode : GameMode) (thinking : Bool) (st : AppState) : AppState :=
  if thinking then st
  else
    { game :=
        if mode = GameMode.ai then st.game.dropLast.dropLast else st.game.dropLast
      selected := none
      pendingPromotion := none
      lastMove := none }

/-! ### Concrete fixtures used to instantiate the theorems -/

/-- A non-terminal oracle view with an empty board. -/
def nonTermView (c : Color) : GameNode :=
  ⟨[], c, false, false, false, false, false⟩

/-- A leaf position: non-terminal, no legal moves enumerated. -/
def c5leaf : GameTree := .node (nonTermView Color.b) []

/-- A quiet white pawn move. -/
def c5move1 : Move := ⟨"a2", "a3", none, none, "a3", PieceType.p⟩

/-- A second quiet white pawn move. -/
def c5move2 : Move := ⟨"b2", "b3", none, none, "b3", PieceType.p⟩

/-- A two-move root position for exercising the move selector. -/
def c5tree : GameTree :=
  .node (nonTermView Color.w) [(c5move1, c5leaf), (c5move2, c5leaf)]

/-- A fixed `Math.random()` stream: draws 1 and 3 are 1/2, draws 0 and 4
are 0, everything else 9/10 (so the randomness trigger never fires). -/
def c5rng : Nat → Rat := fun n =>
  if n = 1 ∨ n = 3 then 1/2 else if n = 0 ∨ n = 4 then 0 else 9/10

/-- A checking, non-capturing queen move (SAN "Qh5+"). -/
def mCheck : Move := ⟨"d1", "h5", none, none, "Qh5+", PieceType.q⟩

/-- A capturing, non-checking queen move (SAN "Qxh5"). -/
def mCapture : Move := ⟨"d1", "h5", none, some PieceType.p, "Qxh5", PieceType.q⟩

/-- A checkmating queen move (SAN "Qxf7#"). -/
def mMate : Move := ⟨"h5", "f7", none, some PieceType.p, "Qxf7#", PieceType.q⟩

/-- An oracle view flagged as checkmate (white to move). -/
def mateView : GameNode := ⟨[], Color.w, true, false, false, false, false⟩

/-- An oracle view flagged as a generic draw. -/
def drawView : GameNode := ⟨[], Color.w, false, true, false, false, false⟩

/-- A small non-terminal view with one white queen and one black pawn on
the board (material 900 - 100 = 800). -/
def materialView : GameNode :=
  ⟨[[some ⟨Color.w, PieceType.q⟩, none], [some ⟨Color.b, PieceType.p⟩]],
   Color.w, false, false, false, false, false⟩

/-- A concrete promotion oracle: from any position, the legal moves are
the two promotions e7-e8 (queen or knight); `applyMv` accepts exactly an
e7-e8 request carrying a promotion kind and echoes that kind back. -/
def promoOracle : Oracle where
  legalMoves _ :=
    [⟨"e7", "e8", some PieceType.q, none, "e8=Q", PieceType.p⟩,
     ⟨"e7", "e8", some PieceType.n, none, "e8=N", PieceType.p⟩]
  applyMv _ req :=
    if req.fromSq = "e7" ∧ req.toSq = "e8" ∧ req.promotion.isSome then
      some ⟨"e7", "e8", req.promotion, none, "e8=Q", PieceType.p⟩
    else none
  pieceAt _ _ := none
  turnOf _ := Color.w

/-- An App state three committed ply into a game. -/
def threePlyState : AppState :=
  ⟨[c5move1, c5move2, ⟨"g8", "f6", none, none, "Nf6", PieceType.n⟩], none, none, none⟩

/-- A stream agreeing with `c5rng` on draws 0..3 and differing later. -/
def c5rngAlt : Nat → Rat := fun n => if n ≤ 3 then c5rng n else 1/3

/-- The constant stream 1/2, a valid `Math.random()` model. -/
def halfRng : Nat → Rat := fun _ => 1/2

/-- Fixture: `c5tree` with its two root moves supplied in the opposite order. -/
def c5swapTree : GameTree :=
  .node (nonTermView Color.w) [(c5move2, c5leaf), (c5move1, c5leaf)]

mutual

/-- Simultaneous reordering of the legal-move lists at every node of a
game tree: same oracle view, children lists permuted after recursively
permuted subtrees (`ChildrenPerm` is the pointwise part: same moves, in
order, with `TreePerm`-related subtrees). -/
inductive TreePerm : GameTree → GameTree → Prop where
  | node (v : GameNode) (ch mid ch' : List (Move × GameTree))
      (hf : ChildrenPerm ch mid) (hp : mid.Perm ch') :
      TreePerm (.node v ch) (.node v ch')

/-- Pointwise part of `TreePerm`: same moves, in order, with recursively
permuted subtrees. -/
inductive ChildrenPerm : List (Move × GameTree) → List (Move × GameTree) → Prop where
  | nil : ChildrenPerm [] []
  | cons (m : Move) (t t' : GameTree) (l l' : List (Move × GameTree)) :
      TreePerm t t' → ChildrenPerm l l' →
      ChildrenPerm ((m, t) :: l) ((m, t') :: l')

end

/-! ## Theorems -/

section FoldHelpers

variable {β : Type}

lemma le_foldl_max (g : β → ERat) :
    ∀ (l : List β) (v : ERat), v ≤ l.foldl (fun a q => max a (g q)) v := by
  intro l
  induction l with
  | nil => intro v; simp
  | cons x rest ih =>
    intro v
    simp only [List.foldl_cons]
    exact le_trans (le_max_left v (g x)) (ih (max v (g x)))

lemma foldl_min_le (g : β → ERat) :
    ∀ (l : List β) (v : ERat), l.foldl (fun a q => min a (g q)) v ≤ v := by
  intro l
  induction l with
  | nil => intro v; simp
  | cons x rest ih =>
    intro v
    simp only [List.foldl_cons]
    exact le_trans (ih (min v (g x))) (min_le_left v (g x))

lemma foldl_max_shift (g : β → ERat) :
    ∀ (l : List β) (v : ERat),
      l.foldl (fun a q => max a (g q)) v =
        max v (l.foldl (fun a q => max a (g q)) ⊥) := by
  intro l
  induction l with
  | nil => intro v; exact (max_eq_left bot_le).symm
  | cons x rest ih =>
    intro v
    simp only [List.foldl_cons]
    rw [ih (max v (g x)), ih (max ⊥ (g x)), max_eq_right (bot_le : (⊥ : ERat) ≤ g x),
      max_assoc]

lemma foldl_min_shift (g : β → ERat) :
    ∀ (l : List β) (v : ERat),
      l.foldl (fun a q => min a (g q)) v =
        min v (l.foldl (fun a q => min a (g q)) ⊤) := by
  intro l
  induction l with
  | nil => intro v; exact (min_eq_left le_top).symm
  | cons x rest ih =>
    intro v
    simp only [List.foldl_cons]
    rw [ih (min v (g x)), ih (min ⊤ (g x)), min_eq_right (le_top : g x ≤ (⊤ : ERat)),
      min_assoc]

end FoldHelpers

/-- The fail-soft alpha-beta window lemma, maximizing side: clamped into
the window `[α₀, β]`, the pruned loop value agrees with the plain running
maximum, provided each child evaluation agrees under its own window. -/
lemma abMaxLoop_clamp (f : GameTree → ERat → ERat → ERat) (g : GameTree → ERat)
    (hfg : ∀ (t : GameTree) (a b : ERat), a < b →
      max a (min b (f t a b)) = max a (min b (g t))) :
    ∀ (l : List (Move × GameTree)) (α₀ β α value : ERat),
      α₀ ≤ α → α = max α₀ value → α < β →
      max α₀ (min β (abMaxLoop f l α β value)) =
        max α₀ (min β (l.foldl (fun a q => max a (g q.2)) value)) := by
  intro l
  induction l with
  | nil => intro α₀ β α value _ _ _; simp [abMaxLoop]
  | cons x rest ih =>
    rintro α₀ β α value h1 h2 h3
    obtain ⟨m, t⟩ := x
    have hvalα : value ≤ α := h2 ▸ le_max_right α₀ value
    have hα₀β : α₀ < β := lt_of_le_of_lt h1 h3
    simp only [abMaxLoop, List.foldl_cons]
    have hfg' : max α (min β (f t α β)) = max α (min β (g t)) := hfg t α β h3
    have hmax : max α (max value (f t α β)) = max α (f t α β) := by
      rw [← max_assoc, max_eq_left hvalα]
    by_cases hbr : β ≤ max α (max value (f t α β))
    · rw [if_pos hbr]
      rw [hmax] at hbr
      have hβchild : β ≤ f t α β := by
        rcases le_or_lt β (f t α β) with h | h
        · exact h
        · exact absurd hbr (not_le.mpr (max_lt h3 h))
      have heq : max α (min β (g t)) = β := by
        rw [← hfg', min_eq_left hβchild, max_eq_right h3.le]
      have hβg : β ≤ g t := by
        rcases le_or_lt β (g t) with h | h
        · exact h
        · exfalso
          have hlt : max α (min β (g t)) < β := by
            rw [min_eq_right h.le]
            exact max_lt h3 h
          rw [heq] at hlt
          exact lt_irrefl β hlt
      rw [min_eq_left (hβchild.trans (le_max_right value (f t α β))),
        max_eq_right hα₀β.le,
        min_eq_left ((hβg.trans (le_max_right value (g t))).trans
          (le_foldl_max (fun q => g q.2) rest (max value (g t)))),
        max_eq_right hα₀β.le]
    · rw [if_neg hbr]
      push_neg at hbr
      have hα' : α₀ ≤ max α (max value (f t α β)) := h1.trans (le_max_left _ _)
      have h2' : max α (max value (f t α β)) = max α₀ (max value (f t α β)) := by
        rw [h2, max_assoc]
        congr 1
        rw [← max_assoc, max_self]
      rw [ih α₀ β (max α (max value (f t α β))) (max value (f t α β)) hα' h2' hbr]
      rw [foldl_max_shift (fun q => g q.2) rest (max value (f t α β)),
        foldl_max_shift (fun q => g q.2) rest (max value (g t))]
      have key : ∀ x y : ERat, max α (min β x) = max α (min β y) →
          max α₀ (min β (max (max value x)
              (rest.foldl (fun a q => max a (g q.2)) ⊥))) =
            max α₀ (min β (max (max value y)
              (rest.foldl (fun a q => max a (g q.2)) ⊥))) := by
        intro x y hxy
        have hminv : min β value = value := min_eq_right (hvalα.trans h3.le)
        rw [min_max_distrib_left β (max value x) _, min_max_distrib_left β value x,
          min_max_distrib_left β (max value y) _, min_max_distrib_left β value y,
          hminv, ← max_assoc α₀ (max value (min β x)) _,
          ← max_assoc α₀ (max value (min β y)) _,
          ← max_assoc α₀ value (min β x), ← max_assoc α₀ value (min β y),
          ← h2, hxy]
      exact key (f t α β) (g t) hfg'

/-- The fail-soft alpha-beta window lemma, minimizing side. -/
lemma abMinLoop_clamp (f : GameTree → ERat → ERat → ERat) (g : GameTree → ERat)
    (hfg : ∀ (t : GameTree) (a b : ERat), a < b →
      max a (min b (f t a b)) = max a (min b (g t))) :
    ∀ (l : List (Move × GameTree)) (β₀ α β value : ERat),
      β ≤ β₀ → β = min β₀ value → α < β →
      max α (min β₀ (abMinLoop f l α β value)) =
        max α (min β₀ (l.foldl (fun a q => min a (g q.2)) value)) := by
  intro l
  induction l with
  | nil => intro β₀ α β value _ _ _; simp [abMinLoop]
  | cons x rest ih =>
    rintro β₀ α β value h1 h2 h3
    obtain ⟨m, t⟩ := x
    have hβval : β ≤ value := h2 ▸ min_le_right β₀ value
    have hαβ₀ : α < β₀ := lt_of_lt_of_le h3 h1
    simp only [abMinLoop, List.foldl_cons]
    have hfg' : max α (min β (f t α β)) = max α (min β (g t)) := hfg t α β h3
    have hmin : min β (min value (f t α β)) = min β (f t α β) := by
      rw [← min_assoc, min_eq_left hβval]
    by_cases hbr : min β (min value (f t α β)) ≤ α
    · rw [if_pos hbr]
      rw [hmin] at hbr
      have hchildα : f t α β ≤ α := by
        rcases le_or_lt (f t α β) α with h | h
        · exact h
        · exact absurd hbr (not_le.mpr (lt_min h3 h))
      have heq : max α (min β (g t)) = α := by
        rw [← hfg', min_eq_right (hchildα.trans h3.le), max_eq_left hchildα]
      have hgα : g t ≤ α := by
        rcases le_or_lt (g t) α with h | h
        · exact h
        · exfalso
          have hlt : α < max α (min β (g t)) := lt_max_of_lt_right (lt_min h3 h)
          rw [heq] at hlt
          exact lt_irrefl α hlt
      rw [max_eq_left ((min_le_right β₀ _).trans
          ((min_le_right value (f t α β)).trans hchildα)),
        max_eq_left ((min_le_right β₀ _).trans
          ((foldl_min_le (fun q => g q.2) rest (min value (g t))).trans
            ((min_le_right value (g t)).trans hgα)))]
    · rw [if_neg hbr]
      push_neg at hbr
      have h1' : min β (min value (f t α β)) ≤ β₀ := (min_le_left _ _).trans h1
      have h2' : min β (min value (f t α β)) = min β₀ (min value (f t α β)) := by
        rw [h2, min_assoc]
        congr 1
        rw [← min_assoc, min_self]
      rw [ih β₀ α (min β (min value (f t α β))) (min value (f t α β)) h1' h2' hbr]
      rw [foldl_min_shift (fun q => g q.2) rest (min value (f t α β)),
        foldl_min_shift (fun q => g q.2) rest (min value (g t))]
      have key : ∀ x y : ERat, max α (min β x) = max α (min β y) →
          max α (min β₀ (min (min value x)
              (rest.foldl (fun a q => min a (g q.2)) ⊤))) =
            max α (min β₀ (min (min value y)
              (rest.foldl (fun a q => min a (g q.2)) ⊤))) := by
        intro x y hxy
        rw [← min_assoc β₀ (min value x) _, ← min_assoc β₀ value x,
          ← min_assoc β₀ (min value y) _, ← min_assoc β₀ value y, ← h2,
          max_min_distrib_left α (min β x) _, max_min_distrib_left α (min β y) _,
          hxy]
      exact key (f t α β) (g t) hfg'

/-- Clamped into any window `α < β`, alpha-beta `minimax` agrees with the
unpruned `minimaxFull` at every node and depth. -/
lemma minimax_clamp :
    ∀ (d : Nat) (t : GameTree) (p : Color) (α β : ERat), α < β →
      max α (min β (minimax t d α β p)) = max α (min β (minimaxFull t d p)) := by
  intro d
  induction d with
  | zero =>
    intro t p α β _
    obtain ⟨v, ch⟩ := t
    simp only [minimax, minimaxFull]
  | succ d ih =>
    intro t p α β hαβ
    obtain ⟨v, ch⟩ := t
    simp only [minimax, minimaxFull]
    cases hterm : terminalScore v p with
    | some s => rfl
    | none =>
      by_cases hch : ch.isEmpty
      · simp [hch]
      · rw [Bool.not_eq_true] at hch
        simp only [hch, Bool.false_eq_true, if_false]
        by_cases hturn : v.turn = p
        · simp only [if_pos hturn]
          exact abMaxLoop_clamp _ _ (fun t' a b hab => ih t' p a b hab) ch α β α ⊥
            le_rfl (max_eq_left bot_le).symm hαβ
        · simp only [if_neg hturn]
          exact abMinLoop_clamp _ _ (fun t' a b hab => ih t' p a b hab) ch β α β ⊤
            le_rfl (min_eq_left le_top).symm hαβ

/-- At the root window `(-Infinity, +Infinity)` the clamp is the identity:
pruned and unpruned search coincide. -/
lemma alphabeta_eq_full (t : GameTree) (d : Nat) (p : Color) :
    minimax t d ⊥ ⊤ p = minimaxFull t d p := by
  have h := minimax_clamp d t p ⊥ ⊤ bot_lt_top
  rwa [min_eq_right le_top, min_eq_right le_top, max_eq_right bot_le,
    max_eq_right bot_le] at h

section PermHelpers

variable {β : Type}

lemma perm_foldl_max (g : β → ERat) {l l' : List β} (h : l.Perm l') :
    ∀ v, l.foldl (fun a q => max a (g q)) v = l'.foldl (fun a q => max a (g q)) v := by
  induction h with
  | nil => intro v; rfl
  | cons x _ ih => intro v; simp only [List.foldl_cons]; exact ih _
  | swap x y l =>
    intro v
    simp only [List.foldl_cons]
    rw [max_assoc, max_comm (g y) (g x), ← max_assoc]
  | trans _ _ ih1 ih2 => intro v; rw [ih1, ih2]

lemma perm_foldl_min (g : β → ERat) {l l' : List β} (h : l.Perm l') :
    ∀ v, l.foldl (fun a q => min a (g q)) v = l'.foldl (fun a q => min a (g q)) v := by
  induction h with
  | nil => intro v; rfl
  | cons x _ ih => intro v; simp only [List.foldl_cons]; exact ih _
  | swap x y l =>
    intro v
    simp only [List.foldl_cons]
    rw [min_assoc, min_comm (g y) (g x), ← min_assoc]
  | trans _ _ ih1 ih2 => intro v; rw [ih1, ih2]

end PermHelpers

lemma childrenPerm_length :
    ∀ {ch mid : List (Move × GameTree)}, ChildrenPerm ch mid → ch.length = mid.length := by
  intro ch
  induction ch with
  | nil => intro mid h; cases h; rfl
  | cons x rest ih =>
    intro mid h
    cases h with
    | cons m t t' l l' htp hcp => simpa using ih hcp

lemma childrenPerm_foldl_max (F : GameTree → ERat)
    (hF : ∀ a b, TreePerm a b → F a = F b) :
    ∀ {ch mid : List (Move × GameTree)}, ChildrenPerm ch mid →
      ∀ v, ch.foldl (fun a q => max a (F q.2)) v = mid.foldl (fun a q => max a (F q.2)) v := by
  intro ch
  induction ch with
  | nil => intro mid h v; cases h; rfl
  | cons x rest ih =>
    intro mid h v
    cases h with
    | cons m t t' l l' htp hcp =>
      simp only [List.foldl_cons]
      rw [hF t t' htp]
      exact ih hcp _

lemma childrenPerm_foldl_min (F : GameTree → ERat)
    (hF : ∀ a b, TreePerm a b → F a = F b) :
    ∀ {ch mid : List (Move × GameTree)}, ChildrenPerm ch mid →
      ∀ v, ch.foldl (fun a q => min a (F q.2)) v = mid.foldl (fun a q => min a (F q.2)) v := by
  intro ch
  induction ch with
  | nil => intro mid h v; cases h; rfl
  | cons x rest ih =>
    intro mid h v
    cases h with
    | cons m t t' l l' htp hcp =>
      simp only [List.foldl_cons]
      rw [hF t t' htp]
      exact ih hcp _

/-- The unpruned minimax value is invariant under reordering the
legal-move lists anywhere in the tree. -/
lemma minimaxFull_perm :
    ∀ (d : Nat) (p : Color) {t t' : GameTree}, TreePerm t t' →
      minimaxFull t d p = minimaxFull t' d p := by
  intro d
  induction d with
  | zero =>
    intro p t t' h
    cases h with
    | node v ch mid ch' hf hp => simp only [minimaxFull]
  | succ d ih =>
    intro p t t' h
    cases h with
    | node v ch mid ch' hf hp =>
      simp only [minimaxFull]
      cases hterm : terminalScore v p with
      | some s => rfl
      | none =>
        have hlen : ch.length = ch'.length := by
          rw [childrenPerm_length hf, hp.length_eq]
        by_cases hch : ch = []
        · subst hch
          have hmid : ch' = [] := by
            cases hf
            exact hp.symm.eq_nil
          subst hmid
          rfl
        · have hch' : ch' ≠ [] := by
            intro h
            apply hch
            apply List.length_eq_zero.mp
            rw [hlen, h, List.length_nil]
          have hA : ¬ (ch.isEmpty = true) := by simpa [List.isEmpty_iff] using hch
          have hB : ¬ (ch'.isEmpty = true) := by simpa [List.isEmpty_iff] using hch'
          rw [if_neg hA, if_neg hB]
          by_cases hturn : v.turn = p
          · simp only [if_pos hturn]
            rw [childrenPerm_foldl_max (fun t0 => minimaxFull t0 d p)
                (fun a b hab => ih p hab) hf ⊥,
              perm_foldl_max (fun t0 => minimaxFull t0.2 d p) hp ⊥]
          · simp only [if_neg hturn]
            rw [childrenPerm_foldl_min (fun t0 => minimaxFull t0 d p)
                (fun a b hab => ih p hab) hf ⊤,
              perm_foldl_min (fun t0 => minimaxFull t0.2 d p) hp ⊤]

/-- Claim C1: for every position, every depth, and every ordering of the
legal-move lists, alpha-beta `minimax` seeded with `alpha = -Infinity`,
`beta = +Infinity` returns exactly the score of the unpruned full minimax
traversal of the same tree, and reordering the move lists never changes
the returned root score. -/
theorem claim1_pruning_equivalence :
    ∀ (t : GameTree) (d : Nat) (p : Color),
      minimax t d ⊥ ⊤ p = minimaxFull t d p ∧
      (∀ t', TreePerm t t' → minimax t' d ⊥ ⊤ p = minimax t d ⊥ ⊤ p) := by
  intro t d p
  refine ⟨alphabeta_eq_full t d p, fun t' h => ?_⟩
  rw [alphabeta_eq_full t' d p, alphabeta_eq_full t d p]
  exact (minimaxFull_perm d p h).symm

/-- Witness for C1: a concrete two-move root reordered, with the
alpha-beta score unchanged. -/
theorem claim1_pruning_equivalence_witness :
    minimax c5swapTree 1 ⊥ ⊤ Color.w = minimax c5tree 1 ⊥ ⊤ Color.w := by
  have hleaf : TreePerm c5leaf c5leaf :=
    TreePerm.node (nonTermView Color.b) [] [] [] ChildrenPerm.nil List.Perm.nil
  have hch : ChildrenPerm [(c5move1, c5leaf), (c5move2, c5leaf)]
      [(c5move1, c5leaf), (c5move2, c5leaf)] :=
    ChildrenPerm.cons c5move1 c5leaf c5leaf _ _ hleaf
      (ChildrenPerm.cons c5move2 c5leaf c5leaf _ _ hleaf ChildrenPerm.nil)
  have htp : TreePerm c5tree c5swapTree :=
    TreePerm.node (nonTermView Color.w) _ _ _ hch
      (List.Perm.swap (c5move2, c5leaf) (c5move1, c5leaf) [])
  exact (claim1_pruning_equivalence c5tree 1 Color.w).2 c5swapTree htp

lemma pieceValue_abs_le (t : PieceType) : |PIECE_VALUE t| ≤ 900 := by
  cases t <;> norm_num [PIECE_VALUE]

lemma signedValue_abs_le (pc : Piece) :
    |(if pc.color = Color.w then PIECE_VALUE pc.ptype else -PIECE_VALUE pc.ptype)| ≤ 900 := by
  by_cases h : pc.color = Color.w
  · simpa [h] using pieceValue_abs_le pc.ptype
  · simp only [h, if_false, abs_neg]
    exact pieceValue_abs_le pc.ptype

lemma inner_fold_bound :
    ∀ (l : List (Option Piece)) (a : Rat),
      |l.foldl
        (fun sum cell =>
          match cell with
          | none => sum
          | some pc =>
              sum + (if pc.color = Color.w then PIECE_VALUE pc.ptype else -PIECE_VALUE pc.ptype))
        a| ≤ |a| + 900 * l.length := by
  intro l
  induction l with
  | nil => intro a; simp
  | cons x rest ih =>
    intro a
    cases x with
    | none =>
      simp only [List.foldl_cons, List.length_cons]
      push_cast
      have := ih a
      linarith
    | some pc =>
      simp only [List.foldl_cons, List.length_cons]
      push_cast
      have hv := signedValue_abs_le pc
      have h1 := ih (a + (if pc.color = Color.w then PIECE_VALUE pc.ptype else -PIECE_VALUE pc.ptype))
      have h2 := abs_add a (if pc.color = Color.w then PIECE_VALUE pc.ptype else -PIECE_VALUE pc.ptype)
      linarith

lemma outer_fold_bound :
    ∀ (ranks : List (List (Option Piece))) (a : Rat),
      (∀ r ∈ ranks, r.length ≤ 8) →
      |ranks.foldl
        (fun sum rank =>
          rank.foldl
            (fun sum cell =>
              match cell with
              | none => sum
              | some pc =>
                  sum + (if pc.color = Color.w then PIECE_VALUE pc.ptype else -PIECE_VALUE pc.ptype))
            sum)
        a| ≤ |a| + 7200 * ranks.length := by
  intro ranks
  induction ranks with
  | nil => intro a _; simp
  | cons r rest ih =>
    intro a hr
    simp only [List.foldl_cons, List.length_cons]
    have h1 := inner_fold_bound r a
    have hlen : (r.length : Rat) ≤ 8 := by
      have := hr r (List.mem_cons_self r rest)
      exact_mod_cast this
    have h2 := ih (r.foldl
      (fun sum cell =>
        match cell with
        | none => sum
        | some pc =>
            sum + (if pc.color = Color.w then PIECE_VALUE pc.ptype else -PIECE_VALUE pc.ptype))
      a) (fun q hq => hr q (List.mem_cons_of_mem r hq))
    push_cast
    linarith

/-- Claim C2: the terminal classifier checks checkmate first (±1,000,000
relative to the perspective color), then any drawn condition (0), else
reports non-terminal; and the sentinel magnitude strictly dominates the
material score of any 8×8 board. -/
theorem claim2_terminal_classifier :
    ∀ (g : GameNode) (p : Color),
      (g.isCheckmate = true →
        terminalScore g p =
          some (if g.turn = p then ofQ (-1000000) else ofQ 1000000)) ∧
      (g.isCheckmate = false →
        (g.isDraw || g.isStalemate || g.isThreefoldRepetition || g.isInsufficientMaterial) = true →
        terminalScore g p = some (ofQ 0)) ∧
      (g.isCheckmate = false →
        (g.isDraw || g.isStalemate || g.isThreefoldRepetition || g.isInsufficientMaterial) = false →
        terminalScore g p = none) ∧
      (g.board.length ≤ 8 → (∀ r ∈ g.board, r.length ≤ 8) →
        |evaluateMaterial g| < 1000000) := by
  intro g p
  refine ⟨fun hcm => ?_, fun hcm hdr => ?_, fun hcm hdr => ?_, fun hb hr => ?_⟩
  · simp [terminalScore, hcm]
  · simp [terminalScore, hcm, hdr]
  · simp [terminalScore, hcm, hdr]
  · have h := outer_fold_bound g.board 0 hr
    have hlen : (g.board.length : Rat) ≤ 8 := by exact_mod_cast hb
    rw [abs_zero] at h
    simp only [evaluateMaterial]
    linarith

/-- Witness for C2: a checkmate view, a drawn view, a non-terminal view,
and the sentinel bound on a concrete small board. -/
theorem claim2_terminal_classifier_witness :
    terminalScore mateView Color.w = some (ofQ (-1000000)) ∧
    terminalScore drawView Color.w = some (ofQ 0) ∧
    terminalScore materialView Color.w = none ∧
    |evaluateMaterial materialView| < 1000000 := by
  refine ⟨?_, ?_, ?_, ?_⟩
  · have h := (claim2_terminal_classifier mateView Color.w).1 rfl
    simpa using h
  · exact (claim2_terminal_classifier drawView Color.w).2.1 rfl rfl
  · exact (claim2_terminal_classifier materialView Color.w).2.2.1 rfl rfl
  · exact (claim2_terminal_classifier materialView Color.w).2.2.2 (by decide) (by decide)

lemma inner_fold_sum :
    ∀ (l : List (Option Piece)) (a : Rat),
      l.foldl
        (fun sum cell =>
          match cell with
          | none => sum
          | some pc =>
              sum + (if pc.color = Color.w then PIECE_VALUE pc.ptype else -PIECE_VALUE pc.ptype))
        a =
      a + ((l.filterMap id).map
        (fun pc => if pc.color = Color.w then PIECE_VALUE pc.ptype else -PIECE_VALUE pc.ptype)).sum := by
  intro l
  induction l with
  | nil => intro a; simp
  | cons x rest ih =>
    intro a
    cases x with
    | none =>
      simp only [List.foldl_cons, List.filterMap_cons, id_eq]
      exact ih a
    | some pc =>
      simp only [List.foldl_cons, List.filterMap_cons, id_eq, List.map_cons, List.sum_cons]
      rw [ih]
      ring

lemma evaluateMaterial_eq_spec (g : GameNode) : evaluateMaterial g = materialSpec g := by
  simp only [evaluateMaterial, materialSpec]
  suffices h : ∀ (ranks : List (List (Option Piece))) (a : Rat),
      ranks.foldl
        (fun sum rank =>
          rank.foldl
            (fun sum cell =>
              match cell with
              | none => sum
              | some pc =>
                  sum + (if pc.color = Color.w then PIECE_VALUE pc.ptype else -PIECE_VALUE pc.ptype))
            sum)
        a =
      a + ((ranks.flatten.filterMap id).map
        (fun pc => if pc.color = Color.w then PIECE_VALUE pc.ptype else -PIECE_VALUE pc.ptype)).sum by
    rw [h g.board 0]
    ring
  intro ranks
  induction ranks with
  | nil => intro a; simp
  | cons r rest ih =>
    intro a
    simp only [List.foldl_cons, List.flatten_cons, List.filterMap_append, List.map_append,
      List.sum_append]
    rw [inner_fold_sum r a, ih]
    ring

/-- Claim C3: on a non-terminal node at depth 0 the search returns the
perspective-relative material score: the signed sum of the piece table
over every piece on the board, negated for a black perspective. -/
theorem claim3_depth_zero_material :
    ∀ (v : GameNode) (ch : List (Move × GameTree)) (α β : ERat) (p : Color),
      terminalScore v p = none →
      minimax (.node v ch) 0 α β p =
        ofQ (if p = Color.w then materialSpec v else -materialSpec v) := by
  intro v ch α β p h
  simp only [minimax, h]
  rw [evaluateMaterial_eq_spec]

/-- Witness for C3: the depth-0 score of a concrete non-terminal position
with a white queen and a black pawn. -/
theorem claim3_depth_zero_material_witness :
    terminalScore materialView Color.w = none ∧
    minimax (.node materialView []) 0 ⊥ ⊤ Color.w =
      ofQ (if Color.w = Color.w then materialSpec materialView else -materialSpec materialView) :=
  ⟨rfl, claim3_depth_zero_material materialView [] ⊥ ⊤ Color.w rfl⟩

lemma undoSt_pushSt (t : GameTree) (st : St) : undoSt (pushSt t st) = st := by
  obtain ⟨cur, stk⟩ := st
  rfl

lemma abMaxLoopSt_state (f : St → ERat → ERat → ERat × St)
    (hf : ∀ st a b, (f st a b).2 = st) :
    ∀ (l : List (Move × GameTree)) (α β v : ERat) (st : St),
      (abMaxLoopSt f l α β v st).2 = st := by
  intro l
  induction l with
  | nil => intro α β v st; rfl
  | cons x rest ih =>
    intro α β v st
    obtain ⟨m, t⟩ := x
    have hundo : undoSt (f (pushSt t st) α β).2 = st := by
      rw [hf]
      exact undoSt_pushSt t st
    simp only [abMaxLoopSt, hundo]
    by_cases hbr : β ≤ max α (max v (f (pushSt t st) α β).1)
    · rw [if_pos hbr]
    · rw [if_neg hbr]
      exact ih _ _ _ _

lemma abMinLoopSt_state (f : St → ERat → ERat → ERat × St)
    (hf : ∀ st a b, (f st a b).2 = st) :
    ∀ (l : List (Move × GameTree)) (α β v : ERat) (st : St),
      (abMinLoopSt f l α β v st).2 = st := by
  intro l
  induction l with
  | nil => intro α β v st; rfl
  | cons x rest ih =>
    intro α β v st
    obtain ⟨m, t⟩ := x
    have hundo : undoSt (f (pushSt t st) α β).2 = st := by
      rw [hf]
      exact undoSt_pushSt t st
    simp only [abMinLoopSt, hundo]
    by_cases hbr : min β (min v (f (pushSt t st) α β).1) ≤ α
    · rw [if_pos hbr]
    · rw [if_neg hbr]
      exact ih _ _ _ _

/-- The recursive search always restores the mutable game: every
`game.move` is paired with a `game.undo`, including on the pruning break
path. -/
lemma minimaxSt_state :
    ∀ (d : Nat) (st : St) (α β : ERat) (p : Color), (minimaxSt st d α β p).2 = st := by
  intro d
  induction d with
  | zero =>
    intro st α β p
    obtain ⟨t, stk⟩ := st
    obtain ⟨v, ch⟩ := t
    simp only [minimaxSt]
    cases terminalScore v p <;> rfl
  | succ d ih =>
    intro st α β p
    obtain ⟨t, stk⟩ := st
    obtain ⟨v, ch⟩ := t
    rw [minimaxSt]
    dsimp only
    cases hterm : terminalScore v p with
    | some s => rfl
    | none =>
      by_cases hch : ch.isEmpty = true
      · rw [if_pos hch]
      · rw [if_neg hch]
        by_cases hturn : v.turn = p
        · rw [if_pos hturn]
          exact abMaxLoopSt_state _ (fun st' a b => ih st' a b p) ch α β ⊥ _
        · rw [if_neg hturn]
          exact abMinLoopSt_state _ (fun st' a b => ih st' a b p) ch α β ⊤ _

lemma rootScoreLoop_state (p : Color) (dep : Nat) (rng : Nat → Rat) :
    ∀ (l : List (Move × GameTree)) (st : St) (g : Nat),
      (rootScoreLoop p dep rng l st g).2.1 = st := by
  intro l
  induction l with
  | nil => intro st g; rfl
  | cons x rest ih =>
    intro st g
    obtain ⟨m, t⟩ := x
    have hundo : undoSt (minimaxSt (pushSt t st) dep ⊥ ⊤ p).2 = st := by
      rw [minimaxSt_state]
      exact undoSt_pushSt t st
    simp only [rootScoreLoop, hundo]
    exact ih st (g + 1)

/-- Claim C4: neither the recursive search nor the root scoring of
`pickAiMove` mutates the caller's position — every exploratory
`game.move` is undone before returning, so the final game state equals
the initial one. -/
theorem claim4_no_position_mutation :
    (∀ (st : St) (d : Nat) (α β : ERat) (p : Color), (minimaxSt st d α β p).2 = st) ∧
    (∀ (st : St) (difficulty : Option String) (rng : Nat → Rat) (g : Nat),
      (pickAiMoveFull st difficulty rng g).2.1 = st) := by
  constructor
  · intro st d α β p
    exact minimaxSt_state d st α β p
  · intro st difficulty rng g
    obtain ⟨t, stk⟩ := st
    obtain ⟨v, ch⟩ := t
    simp only [pickAiMoveFull]
    by_cases hch : ch.isEmpty = true
    · rw [if_pos hch]
    · rw [if_neg hch]
      have hroot := rootScoreLoop_state v.turn
        (((AI_DIFFICULTY_PRESETS (clampDifficultyKey difficulty)).getD
          ⟨"Medium", 2, 18/100⟩).depth - 1) rng ch (GameTree.node v ch, stk) g
      by_cases hr : rng (rootScoreLoop v.turn
          (((AI_DIFFICULTY_PRESETS (clampDifficultyKey difficulty)).getD
            ⟨"Medium", 2, 18/100⟩).depth - 1) rng ch (GameTree.node v ch, stk) g).2.2 <
          ((AI_DIFFICULTY_PRESETS (clampDifficultyKey difficulty)).getD
            ⟨"Medium", 2, 18/100⟩).randomness
      · rw [if_pos hr]
        exact hroot
      · rw [if_neg hr]
        exact hroot

lemma rootScoreLoop_counter (p : Color) (dep : Nat) (rng : Nat → Rat) :
    ∀ (l : List (Move × GameTree)) (st : St) (g : Nat),
      (rootScoreLoop p dep rng l st g).2.2 = g + l.length := by
  intro l
  induction l with
  | nil => intro st g; simp [rootScoreLoop]
  | cons x rest ih =>
    intro st g
    obtain ⟨m, t⟩ := x
    simp only [rootScoreLoop, List.length_cons]
    rw [ih]
    omega

lemma rootScoreLoop_rng_agree (p : Color) (dep : Nat) :
    ∀ (l : List (Move × GameTree)) (st : St) (g : Nat) (r1 r2 : Nat → Rat),
      (∀ i, i < l.length → r1 (g + i) = r2 (g + i)) →
      rootScoreLoop p dep r1 l st g = rootScoreLoop p dep r2 l st g := by
  intro l
  induction l with
  | nil => intro st g r1 r2 _; rfl
  | cons x rest ih =>
    intro st g r1 r2 h
    obtain ⟨m, t⟩ := x
    simp only [rootScoreLoop]
    have h0 : r1 g = r2 g := by simpa using h 0 (by simp)
    rw [h0]
    have htail :
        rootScoreLoop p dep r1 rest
            (undoSt (minimaxSt (pushSt t st) dep ⊥ ⊤ p).2) (g + 1) =
          rootScoreLoop p dep r2 rest
            (undoSt (minimaxSt (pushSt t st) dep ⊥ ⊤ p).2) (g + 1) := by
      apply ih
      intro i hi
      have hstep := h (i + 1) (by simp only [List.length_cons]; omega)
      have heq : g + (i + 1) = g + 1 + i := by omega
      rwa [heq] at hstep
    rw [htail]

/-- Corrected Claim C5: `pickAiMove`'s randomness is the ambient
`Math.random` stream (modelled by `rng` and the consumed-draw counter):
the chosen move is a deterministic function of the position, the
difficulty and the stream values the call consumes, so two invocations
that read the same stream segment return the same move (the number of
draws consumed is at most `number of root moves + 2`). -/
theorem claim5_determinism_fixed_stream :
    ∀ (st : St) (difficulty : Option String) (r1 r2 : Nat → Rat) (g : Nat),
      (∀ i, i < st.1.children.length + 2 → r1 (g + i) = r2 (g + i)) →
      pickAiMoveFull st difficulty r1 g = pickAiMoveFull st difficulty r2 g := by
  intro st difficulty r1 r2 g h
  obtain ⟨t, stk⟩ := st
  obtain ⟨v, ch⟩ := t
  simp only [GameTree.children] at h
  simp only [pickAiMoveFull]
  by_cases hch : ch.isEmpty = true
  · rw [if_pos hch, if_pos hch]
  · rw [if_neg hch, if_neg hch]
    rw [rootScoreLoop_rng_agree _ _ ch (GameTree.node v ch, stk) g r1 r2
      (fun i hi => h i (by omega))]
    rw [rootScoreLoop_counter]
    rw [show r1 (g + ch.length) = r2 (g + ch.length) from h ch.length (by omega)]
    rw [show r1 (g + ch.length + 1) = r2 (g + ch.length + 1) by
      have hstep := h (ch.length + 1) (by omega)
      rwa [← Nat.add_assoc] at hstep]

section RatEval

attribute [local semireducible] Rat.mul Rat.inv Rat.add Rat.sub

/-- Counterexample to C5 as stated: with the ambient stream shared between
invocations (the second call starts at the draw counter where the first
stopped), two invocations of `pickAiMove` on the identical position and
difficulty return different moves. -/
theorem claim5_hidden_global_counterexample :
    (pickAiMoveFull (c5tree, []) (some "easy") c5rng
        ((pickAiMoveFull (c5tree, []) (some "easy") c5rng 0).2.2)).1 ≠
      (pickAiMoveFull (c5tree, []) (some "easy") c5rng 0).1 := by
  decide

/-- Witness for the corrected C5: two streams agreeing on the consumed
segment yield the same selection. -/
theorem claim5_determinism_fixed_stream_witness :
    (∀ i, i < ((c5tree, ([] : List GameTree)) : St).1.children.length + 2 →
      c5rng (0 + i) = c5rngAlt (0 + i)) ∧
    pickAiMoveFull (c5tree, []) (some "easy") c5rng 0 =
      pickAiMoveFull (c5tree, []) (some "easy") c5rngAlt 0 :=
  ⟨by decide, claim5_determinism_fixed_stream (c5tree, []) (some "easy") c5rng c5rngAlt 0
    (by decide)⟩

end RatEval

lemma ofQ_le_ofQ {a b : Rat} (h : a ≤ b) : ofQ a ≤ ofQ b := by
  simp only [ofQ]
  exact_mod_cast h

lemma ofQ_nonneg {a : Rat} (h : 0 ≤ a) : (0 : ERat) ≤ ofQ a := by
  simpa only [ofQ] using ofQ_le_ofQ h

/-- Amended Claim C6: the heuristic grants +10 for captures, +3 for a SAN
carrying "+" (check), +100 for a SAN carrying "#" (checkmate), +0.5 for a
non-pawn mover and up to +0.25 of randomness — so checkmate dominates
everything, a capture outscores a non-capturing check (the capture bonus,
not the check bonus, is the larger of the two), the non-pawn bonus is the
0.5 increment, the heuristic lies in `[0, 113.75)`, and after the ×0.35
scaling it never reorders two root moves whose minimax scores differ by
more than the scaled ceiling `0.35 × 113.75`. -/
theorem claim6_heuristic_tiebreak :
    ∀ (m1 m2 : Move) (r1 r2 : Rat), 0 ≤ r1 → r1 < 1 → 0 ≤ r2 → r2 < 1 →
      ((m1.sanText.data.contains '#') = true → (m2.sanText.data.contains '#') = false →
        scoreMoveHeuristic m2 r2 < scoreMoveHeuristic m1 r1) ∧
      (m1.captured.isSome = true → (m1.sanText.data.contains '#') = false →
        m2.captured.isSome = false → (m2.sanText.data.contains '#') = false →
        scoreMoveHeuristic m2 r2 < scoreMoveHeuristic m1 r1) ∧
      (m1.captured.isSome = m2.captured.isSome → m1.sanText = m2.sanText →
        m1.piece ≠ PieceType.p → m2.piece = PieceType.p →
        scoreMoveHeuristic m1 r1 = scoreMoveHeuristic m2 r1 + 1/2) ∧
      (0 ≤ scoreMoveHeuristic m1 r1 ∧ scoreMoveHeuristic m1 r1 < 455/4) ∧
      (∀ mm1 mm2 : ERat,
        mm2 + ofQ ((455/4) * (35/100)) < mm1 →
        mm2 + ofQ (scoreMoveHeuristic m2 r2 * (35/100)) <
          mm1 + ofQ (scoreMoveHeuristic m1 r1 * (35/100))) := by
  have hub : ∀ (m : Move) (r : Rat), 0 ≤ r → r < 1 →
      0 ≤ scoreMoveHeuristic m r ∧ scoreMoveHeuristic m r < 455/4 := by
    intro m r h0 h1
    unfold scoreMoveHeuristic
    constructor <;> split_ifs <;> linarith
  intro m1 m2 r1 r2 hr1a hr1b hr2a hr2b
  refine ⟨?_, ?_, ?_, hub m1 r1 hr1a hr1b, ?_⟩
  · intro h1 h2
    simp only [scoreMoveHeuristic, h1, h2, Bool.false_eq_true, if_false, if_true]
    split_ifs <;> linarith
  · intro hc1 h1 hc2 h2
    simp only [scoreMoveHeuristic, hc1, h1, hc2, h2, Bool.false_eq_true, if_false, if_true]
    split_ifs <;> linarith
  · intro hcap hsan hp1 hp2
    have hA : (if m1.piece ≠ PieceType.p then (1/2 : Rat) else 0) = 1/2 := if_pos hp1
    have hB : (if m2.piece ≠ PieceType.p then (1/2 : Rat) else 0) = 0 := by
      rw [hp2]
      simp
    simp only [scoreMoveHeuristic, hcap, hsan, hA, hB]
    ring
  · intro mm1 mm2 hgap
    have h2ub := (hub m2 r2 hr2a hr2b).2
    have h1lb := (hub m1 r1 hr1a hr1b).1
    calc mm2 + ofQ (scoreMoveHeuristic m2 r2 * (35/100))
        ≤ mm2 + ofQ ((455/4) * (35/100)) := by
          apply add_le_add_left
          apply ofQ_le_ofQ
          nlinarith
      _ < mm1 := hgap
      _ ≤ mm1 + ofQ (scoreMoveHeuristic m1 r1 * (35/100)) := by
          apply le_add_of_nonneg_right
          apply ofQ_nonneg
          nlinarith

section RatEvalB

attribute [local semireducible] Rat.mul Rat.inv Rat.add Rat.sub

/-- Counterexample to C6 as stated: the claim requires a strictly larger
bonus for a checking move than for a capturing move, but the code scores a
non-capturing check (+3) strictly below a non-checking capture (+10). -/
theorem claim6_counterexample :
    scoreMoveHeuristic mCheck 0 < scoreMoveHeuristic mCapture 0 := by
  decide

/-- Witness for the amended C6: mate dominance and the no-reorder bound at
concrete moves, randomness draws and minimax scores. -/
theorem claim6_heuristic_tiebreak_witness :
    scoreMoveHeuristic mCapture (1/2) < scoreMoveHeuristic mMate 0 ∧
    ofQ 0 + ofQ (scoreMoveHeuristic mCapture (1/2) * (35/100)) <
      ofQ 100 + ofQ (scoreMoveHeuristic mMate 0 * (35/100)) := by
  have h := claim6_heuristic_tiebreak mMate mCapture 0 (1/2)
    (by norm_num) (by norm_num) (by norm_num) (by norm_num)
  refine ⟨h.1 (by decide) (by decide), ?_⟩
  exact h.2.2.2.2 (ofQ 100) (ofQ 0) (by decide)

end RatEvalB

/-- Claim C7: undo in AI mode removes two ply when at least two exist and
otherwise all available ply (`take (length - 2)` covers both), in
two-player mode exactly one ply (`take (length - 1)`), and on an
already-initial state it is a no-op at the initial position. -/
theorem claim7_undo_ply_counts :
    ∀ (mode : GameMode) (st : AppState),
      (mode = GameMode.ai →
        (doUndo mode false st).game = st.game.take (st.game.length - 2)) ∧
      (mode = GameMode.human →
        (doUndo mode false st).game = st.game.take (st.game.length - 1)) ∧
      (st.game = [] → (doUndo mode false st).game = []) := by
  intro mode st
  refine ⟨fun h => ?_, fun h => ?_, fun h => ?_⟩
  · subst h
    simp only [doUndo, Bool.false_eq_true, if_false, if_pos rfl]
    rw [List.dropLast_eq_take, List.dropLast_eq_take, List.take_take, List.length_take]
    have hm : min (min (st.game.length - 1) st.game.length - 1) (st.game.length - 1) =
        st.game.length - 2 := by omega
    rw [hm]
    simp
  · subst h
    simp only [doUndo, Bool.false_eq_true, if_false]
    rw [if_neg (by intro hcontra; cases hcontra)]
    exact List.dropLast_eq_take st.game
  · cases mode <;> simp [doUndo, h]

/-- Witness for C7: the three-ply fixture in both modes and the empty
history no-op. -/
theorem claim7_undo_ply_counts_witness :
    (doUndo GameMode.ai false threePlyState).game =
      threePlyState.game.take (threePlyState.game.length - 2) ∧
    (doUndo GameMode.human false threePlyState).game =
      threePlyState.game.take (threePlyState.game.length - 1) ∧
    (doUndo GameMode.ai false ⟨[], none, none, none⟩).game = [] :=
  ⟨(claim7_undo_ply_counts GameMode.ai threePlyState).1 rfl,
   (claim7_undo_ply_counts GameMode.human threePlyState).2.1 rfl,
   (claim7_undo_ply_counts GameMode.ai ⟨[], none, none, none⟩).2.2 rfl⟩

/-- Claim C8: when the (from, to) request matches a promotion (several
legal moves or a promotion flag), `tryMove` commits nothing — the position
is unchanged and the pending-promotion marker is set to (from, to); while
the marker is set every board click is a no-op; supplying a promotion kind
then commits exactly one new position whose committed move carries that
kind, and clears the marker.  (`hfaith` is the oracle contract that the
applied move echoes the requested promotion.) -/
theorem claim8_promotion_gating :
    ∀ (O : Oracle) (st : AppState) (fromSq toSq : Square) (pk : PieceType),
      (∀ h req mv, O.applyMv h req = some mv → mv.promotion = req.promotion) →
      ∀ (m : Move) (rest : List Move),
      (legalByFrom O st.game fromSq).filter (fun mv => mv.toSq = toSq) = m :: rest →
      (rest ≠ [] ∨ m.promotion.isSome = true) →
      (tryMove O st fromSq toSq).1 = true ∧
      (tryMove O st fromSq toSq).2.game = st.game ∧
      (tryMove O st fromSq toSq).2.pendingPromotion = some (fromSq, toSq) ∧
      (∀ (sq : Square) (go ab : Bool),
        onSquareClick O go ab (tryMove O st fromSq toSq).2 sq =
          (tryMove O st fromSq toSq).2) ∧
      (∀ mv, O.applyMv (tryMove O st fromSq toSq).2.game ⟨fromSq, toSq, some pk⟩ = some mv →
        (choosePromotion O (tryMove O st fromSq toSq).2 pk).game = st.game ++ [mv] ∧
        mv.promotion = some pk ∧
        (choosePromotion O (tryMove O st fromSq toSq).2 pk).pendingPromotion = none) := by
  intro O st fromSq toSq pk hfaith m rest hfil hpromo
  have hcond : (decide (rest.length + 1 > 1) || m.promotion.isSome) = true := by
    rcases hpromo with h | h
    · have hl : rest.length > 0 := List.length_pos.mpr h
      have : rest.length + 1 > 1 := by omega
      simp [this]
    · simp [h]
  have htry : tryMove O st fromSq toSq =
      (true, { st with pendingPromotion := some (fromSq, toSq) }) := by
    unfold tryMove
    rw [hfil]
    simp only [hcond, if_true]
  rw [htry]
  refine ⟨rfl, rfl, rfl, ?_, ?_⟩
  · intro sq go ab
    cases go <;> cases ab <;> simp [onSquareClick]
  · intro mv hmv
    have hgame : ({ st with pendingPromotion := some (fromSq, toSq) } : AppState).game =
      st.game := rfl
    rw [hgame] at hmv
    have happ : choosePromotion O { st with pendingPromotion := some (fromSq, toSq) } pk =
        (applyMove O { st with pendingPromotion := some (fromSq, toSq) }
          ⟨fromSq, toSq, some pk⟩).2 := rfl
    refine ⟨?_, hfaith _ _ _ hmv, ?_⟩
    · rw [happ]
      simp only [applyMove, hgame, hmv]
    · rw [happ]
      simp only [applyMove, hgame, hmv]

/-- Witness for C8: the concrete promotion oracle on the initial state —
deferred commit, marker set, then a queen promotion committed as the
single new ply. -/
theorem claim8_promotion_gating_witness :
    (tryMove promoOracle ⟨[], none, none, none⟩ "e7" "e8").1 = true ∧
    (tryMove promoOracle ⟨[], none, none, none⟩ "e7" "e8").2.game = [] ∧
    (tryMove promoOracle ⟨[], none, none, none⟩ "e7" "e8").2.pendingPromotion =
      some ("e7", "e8") ∧
    (choosePromotion promoOracle (tryMove promoOracle ⟨[], none, none, none⟩ "e7" "e8").2
        PieceType.q).game =
      [⟨"e7", "e8", some PieceType.q, none, "e8=Q", PieceType.p⟩] := by
  have hfaith : ∀ h req mv, promoOracle.applyMv h req = some mv →
      mv.promotion = req.promotion := by
    intro h req mv hmv
    simp only [promoOracle] at hmv
    split_ifs at hmv
    · cases hmv
      rfl
  have h := claim8_promotion_gating promoOracle ⟨[], none, none, none⟩ "e7" "e8" PieceType.q
    hfaith ⟨"e7", "e8", some PieceType.q, none, "e8=Q", PieceType.p⟩
    [⟨"e7", "e8", some PieceType.n, none, "e8=N", PieceType.p⟩]
    (by decide) (Or.inl (by decide))
  have hmv := h.2.2.2.2 ⟨"e7", "e8", some PieceType.q, none, "e8=Q", PieceType.p⟩ (by decide)
  refine ⟨h.1, h.2.1, h.2.2.1, ?_⟩
  rw [hmv.1]
  rfl

lemma insertLe_perm {α : Type} (le : α → α → Bool) (a : α) :
    ∀ l, (insertLe le a l).Perm (a :: l) := by
  intro l
  induction l with
  | nil => exact List.Perm.refl _
  | cons b l ih =>
    unfold insertLe
    split
    · exact List.Perm.refl _
    · exact (ih.cons b).trans (List.Perm.swap a b l)

lemma sortStable_perm {α : Type} (le : α → α → Bool) :
    ∀ l, (sortStable le l).Perm l := by
  intro l
  induction l with
  | nil => exact List.Perm.refl _
  | cons a l ih =>
    show (insertLe le a (sortStable le l)).Perm (a :: l)
    exact (insertLe_perm le a (sortStable le l)).trans (ih.cons a)

lemma rootScoreLoop_moves (p : Color) (dep : Nat) (rng : Nat → Rat) :
    ∀ (l : List (Move × GameTree)) (st : St) (g : Nat),
      ((rootScoreLoop p dep rng l st g).1).map ScoredMove.move = l.map Prod.fst := by
  intro l
  induction l with
  | nil => intro st g; rfl
  | cons x rest ih =>
    intro st g
    obtain ⟨m, t⟩ := x
    simp only [rootScoreLoop, List.map_cons]
    rw [ih]

/-- Claim C9: with no legal moves `pickAiMove` returns none without
raising; with at least one legal move (and `Math.random()` values in
`[0,1)`) it returns some element of the legal-move list; and an
unrecognized difficulty key behaves exactly as the medium preset. -/
theorem claim9_no_moves_and_fallback :
    ∀ (st : St) (difficulty : Option String) (rng : Nat → Rat) (g : Nat),
      (st.1.children = [] → (pickAiMoveFull st difficulty rng g).1 = none) ∧
      (st.1.children ≠ [] → (∀ i, 0 ≤ rng i ∧ rng i < 1) →
        ∃ m, (pickAiMoveFull st difficulty rng g).1 = some m ∧
          m ∈ st.1.children.map Prod.fst) ∧
      (∀ key, AI_DIFFICULTY_PRESETS key = none →
        pickAiMoveFull st (some key) rng g = pickAiMoveFull st (some "medium") rng g) := by
  intro st difficulty rng g
  obtain ⟨t, stk⟩ := st
  obtain ⟨v, ch⟩ := t
  refine ⟨fun h => ?_, fun h hrng => ?_, fun key hkey => ?_⟩
  · simp only [GameTree.children] at h
    subst h
    rfl
  · simp only [GameTree.children] at h ⊢
    have hne : ch.isEmpty = false := by simpa [List.isEmpty_iff] using h
    simp only [pickAiMoveFull, hne, Bool.false_eq_true, if_false]
    have hperm := sortStable_perm scoredLe
      (rootScoreLoop v.turn
        (((AI_DIFFICULTY_PRESETS (clampDifficultyKey difficulty)).getD
          ⟨"Medium", 2, 18/100⟩).depth - 1) rng ch (GameTree.node v ch, stk) g).1
    have hmap := rootScoreLoop_moves v.turn
      (((AI_DIFFICULTY_PRESETS (clampDifficultyKey difficulty)).getD
        ⟨"Medium", 2, 18/100⟩).depth - 1) rng ch (GameTree.node v ch, stk) g
    have hmem : ∀ e, e ∈ sortStable scoredLe
        (rootScoreLoop v.turn
          (((AI_DIFFICULTY_PRESETS (clampDifficultyKey difficulty)).getD
            ⟨"Medium", 2, 18/100⟩).depth - 1) rng ch (GameTree.node v ch, stk) g).1 →
        e.move ∈ ch.map Prod.fst := by
      intro e he
      rw [← hmap]
      exact List.mem_map_of_mem ScoredMove.move (hperm.mem_iff.mp he)
    have hlen : (sortStable scoredLe
        (rootScoreLoop v.turn
          (((AI_DIFFICULTY_PRESETS (clampDifficultyKey difficulty)).getD
            ⟨"Medium", 2, 18/100⟩).depth - 1) rng ch (GameTree.node v ch, stk) g).1).length =
        ch.length := by
      rw [hperm.length_eq]
      have := congrArg List.length hmap
      simpa using this
    have hchpos : 0 < ch.length := List.length_pos.mpr h
    split
    · -- randomness triggered: indexed pick among the top min 4 n
      rename_i hrand
      set sorted := sortStable scoredLe
        (rootScoreLoop v.turn
          (((AI_DIFFICULTY_PRESETS (clampDifficultyKey difficulty)).getD
            ⟨"Medium", 2, 18/100⟩).depth - 1) rng ch (GameTree.node v ch, stk) g).1 with hsorted
      have hn : 0 < min 4 sorted.length := by
        rw [hlen]
        omega
      have hidx : ((⌊rng ((rootScoreLoop v.turn
          (((AI_DIFFICULTY_PRESETS (clampDifficultyKey difficulty)).getD
            ⟨"Medium", 2, 18/100⟩).depth - 1) rng ch (GameTree.node v ch, stk) g).2.2 + 1) *
          ((min 4 sorted.length : Nat) : Rat)⌋).toNat) < min 4 sorted.length := by
        set rv := rng ((rootScoreLoop v.turn
          (((AI_DIFFICULTY_PRESETS (clampDifficultyKey difficulty)).getD
            ⟨"Medium", 2, 18/100⟩).depth - 1) rng ch (GameTree.node v ch, stk) g).2.2 + 1)
          with hrv
        have h0 : 0 ≤ rv := (hrng _).1
        have h1 : rv < 1 := (hrng _).2
        have hfl : (0 : Int) ≤ ⌊rv * ((min 4 sorted.length : Nat) : Rat)⌋ :=
          Int.floor_nonneg.mpr (mul_nonneg h0 (by positivity))
        rw [Int.toNat_lt hfl, Int.floor_lt]
        push_cast
        have : rv * ((min 4 sorted.length : Nat) : Rat) <
            1 * ((min 4 sorted.length : Nat) : Rat) := by
          apply mul_lt_mul_of_pos_right h1
          exact_mod_cast hn
        simpa using this
      have hlt : ((⌊rng ((rootScoreLoop v.turn
          (((AI_DIFFICULTY_PRESETS (clampDifficultyKey difficulty)).getD
            ⟨"Medium", 2, 18/100⟩).depth - 1) rng ch (GameTree.node v ch, stk) g).2.2 + 1) *
          ((min 4 sorted.length : Nat) : Rat)⌋).toNat) < sorted.length :=
        lt_of_lt_of_le hidx (min_le_right 4 sorted.length)
      rw [List.getElem?_eq_getElem hlt]
      exact ⟨_, rfl, hmem _ (List.getElem_mem hlt)⟩
    · -- deterministic top pick
      have hnil : sortStable scoredLe
          (rootScoreLoop v.turn
            (((AI_DIFFICULTY_PRESETS (clampDifficultyKey difficulty)).getD
              ⟨"Medium", 2, 18/100⟩).depth - 1) rng ch (GameTree.node v ch, stk) g).1 ≠ [] := by
        intro hcontra
        rw [hcontra] at hlen
        simp at hlen
        omega
      obtain ⟨hd, tl, heq⟩ := List.exists_cons_of_ne_nil hnil
      rw [heq]
      exact ⟨hd.move, rfl, hmem hd (heq ▸ List.mem_cons_self hd tl)⟩
  · have hclamp : clampDifficultyKey (some key) = clampDifficultyKey (some "medium") := by
      simp [clampDifficultyKey, hkey]
    simp only [pickAiMoveFull, hclamp]

/-- Witness for C9: the leaf position yields none, the two-move fixture
yields one of its own moves, and an unknown key matches the medium
behavior. -/
theorem claim9_no_moves_and_fallback_witness :
    (pickAiMoveFull (c5leaf, []) (some "hard") halfRng 0).1 = none ∧
    (∃ m, (pickAiMoveFull (c5tree, []) (some "hard") halfRng 0).1 = some m ∧
      m ∈ ((c5tree, ([] : List GameTree)) : St).1.children.map Prod.fst) ∧
    pickAiMoveFull (c5tree, []) (some "weird") halfRng 0 =
      pickAiMoveFull (c5tree, []) (some "medium") halfRng 0 := by
  refine ⟨(claim9_no_moves_and_fallback (c5leaf, []) (some "hard") halfRng 0).1 rfl,
    (claim9_no_moves_and_fallback (c5tree, []) (some "hard") halfRng 0).2.1 ?_ ?_,
    (claim9_no_moves_and_fallback (c5tree, []) (some "weird") halfRng 0).2.2 "weird" rfl⟩
  · show ([(c5move1, c5leaf), (c5move2, c5leaf)] : List (Move × GameTree)) ≠ []
    exact List.cons_ne_nil _ _
  · intro i
    constructor <;> norm_num [halfRng]

/-- Claim C10: for in-range UI coordinates and either orientation,
`squareToIdx` inverts `idxToSquare` exactly; and `squareToIdx` returns
null whenever the file character is outside a..h (or missing) or the rank
character is not a digit (or missing). -/
theorem claim10_coordinate_inverses :
    (∀ (row col : Nat), row < 8 → col < 8 → ∀ orient : Color,
      squareToIdx (idxToSquare row col orient) orient = some ((row : Int), (col : Int))) ∧
    (∀ (s : String) (orient : Color),
      (∀ c, s.data.head? = some c → c ∉ FILES) → squareToIdx s orient = none) ∧
    (∀ (s : String) (orient : Color),
      (∀ c, s.data[1]? = some c → c.isDigit = false) → squareToIdx s orient = none) := by
  refine ⟨?_, ?_, ?_⟩
  · intro row col hr hc orient
    interval_cases row <;> interval_cases col <;> cases orient <;> rfl
  · intro s orient h
    simp only [squareToIdx]
    cases hh : s.data.head? with
    | none =>
      cases h1 : s.data[1]? with
      | none => rfl
      | some c =>
        by_cases hd : c.isDigit
        · simp [hd]
        · simp [hd]
    | some c =>
      have hne : c ∉ FILES := h c hh
      cases h1 : s.data[1]? with
      | none => rfl
      | some c' =>
        by_cases hd : c'.isDigit
        · simp [hd, hne]
        · simp [hd]
  · intro s orient h
    simp only [squareToIdx]
    cases h1 : s.data[1]? with
    | none =>
      cases hh : s.data.head? <;> rfl
    | some c =>
      have hd : c.isDigit = false := h c h1
      cases hh : s.data.head? <;> simp [hd]

/-- Witness for C10: a concrete round trip and concrete rejected inputs. -/
theorem claim10_coordinate_inverses_witness :
    squareToIdx (idxToSquare 3 4 Color.w) Color.w = some ((3 : Int), (4 : Int)) ∧
    squareToIdx "z4" Color.w = none ∧
    squareToIdx "ax" Color.b = none := by
  refine ⟨claim10_coordinate_inverses.1 3 4 (by omega) (by omega) Color.w,
    claim10_coordinate_inverses.2.1 "z4" Color.w ?_,
    claim10_coordinate_inverses.2.2 "ax" Color.b ?_⟩
  · intro c hc
    rw [show "z4".data.head? = some 'z' from rfl] at hc
    cases hc
    decide
  · intro c hc
    rw [show "ax".data[1]? = some 'x' from rfl] at hc
    cases hc
    decide

end ChessCore
